import Mathlib

/-!
# Internet checksum simulator (`main.cpp`)

A shallow embedding of the checksum engine (`computeChecksum`, `verifyChecksum`),
the bit/byte codec (`binaryStringToBytes`), the error injector
(`introduceErrors`) and the orchestrator (`simulateBinaryTransmission`),
followed by theorems about them.

Conventions of the embedding:
* `unsigned char` is `Fin 256`; a `vector<unsigned char>` is a `List Byte`;
* `unsigned int` / `unsigned short` values are `Nat`, every arithmetic result
  being reduced `% 2^32` / `% 2^16` exactly where the C++ type truncates;
* operations the C++ leaves undefined or that throw (an out-of-range
  `operator[]`, `% 0`, a non-binary character given to `std::bitset`) are
  faults of an `Except Fault _` result;
* the `for` loops of the checksum engine and of the codec run on a fuel
  counter; the entry points supply the fuel and a fault `outOfFuel` is
  distinct from all others;
* `rand()` is an explicit stream `rand : Nat → Nat` together with the number
  of draws already consumed.
-/

namespace Checksum

/-- An `unsigned char`. -/
abbrev Byte := Fin 256

/-- The ways in which the embedded code can fail to produce a value. -/
inductive Fault where
  | outOfBounds
  | outOfFuel
  | divisionByZero
  | invalidArgument
  deriving DecidableEq

/-- The prologue shared by `computeChecksum` and `verifyChecksum`
(`main.cpp` lines 15-17 and 35-37): the by-value copy of the buffer receives
one `0x00` byte when its size is odd. -/
def pad (data : List Byte) : List Byte :=
  if data.length % 2 ≠ 0 then data ++ [0x00] else data

/-- The loop shared by `computeChecksum` and `verifyChecksum`
(`main.cpp` lines 19-26 and 39-46), started at index `i` with accumulator
`totalSum`:
`for (; i < data.size(); i += 2) { word = (data[i] << 8) | data[i+1]; ... }`.
Both element reads are checked. -/
def sumLoop (data : List Byte) : Nat → Nat → Nat → Except Fault Nat
  | 0, i, totalSum =>
    if i < data.length then .error .outOfFuel else .ok totalSum
  | fuel + 1, i, totalSum =>
    if i < data.length then
      match data[i]?, data[i + 1]? with
      | some hi, some lo =>
        let word := ((hi.val <<< 8) ||| lo.val) % 2 ^ 16
        let totalSum := (totalSum + word) % 2 ^ 32
        let totalSum :=
          if totalSum > 0xFFFF then ((totalSum &&& 0xFFFF) + 1) % 2 ^ 32 else totalSum
        sumLoop data fuel (i + 2) totalSum
      | _, _ => .error .outOfBounds
    else .ok totalSum

/-- Embedding of `computeChecksum` (`main.cpp` lines 12-29): the 32-bit
complement `~(totalSum & 0xFFFF)` masked with `0xFFFF` and returned as an
`unsigned short`. -/
def computeChecksum (data : List Byte) : Except Fault Nat :=
  let data := pad data
  match sumLoop data data.length 0 0 with
  | .error e => .error e
  | .ok totalSum => .ok (((2 ^ 32 - 1 - (totalSum &&& 0xFFFF)) &&& 0xFFFF) % 2 ^ 16)

/-- Embedding of `verifyChecksum` (`main.cpp` lines 32-49): `totalSum & 0xFFFF`
returned as an `unsigned short`. -/
def verifyChecksum (data : List Byte) : Except Fault Nat :=
  let data := pad data
  match sumLoop data data.length 0 0 with
  | .error e => .error e
  | .ok totalSum => .ok ((totalSum &&& 0xFFFF) % 2 ^ 16)

/-- Conversion to `unsigned char` (truncation to the low 8 bits). -/
def toByte (n : Nat) : Byte := ⟨n % 256, Nat.mod_lt n (by decide)⟩

/-- The call `binary.substr(pos, n)` of `std::string`: the at most `n`
characters from position `pos`; it throws when `pos` is past the end. -/
def substr (s : List Char) (pos n : Nat) : Except Fault (List Char) :=
  if pos > s.length then .error .outOfBounds else .ok ((s.drop pos).take n)

/-- The expression `bitset<8>(str).to_ulong()`: the constructor throws
`std::invalid_argument` when a character of `str` is neither `'0'` nor `'1'`;
otherwise the first 8 characters are read most significant bit first. -/
def bitset8 (str : List Char) : Except Fault Nat :=
  if str.all (fun c => c == '0' || c == '1') then
    .ok ((str.take 8).foldl (fun acc c => 2 * acc + (if c == '1' then 1 else 0)) 0)
  else .error .invalidArgument

/-- The loop of `binaryStringToBytes` (`main.cpp` lines 55-63), started at
index `i` with the bytes produced so far. -/
def encodeLoop (binary : List Char) : Nat → Nat → List Byte → Except Fault (List Byte)
  | 0, i, bytesList =>
    if i < binary.length then .error .outOfFuel else .ok bytesList
  | fuel + 1, i, bytesList =>
    if i < binary.length then
      match substr binary i 8 with
      | .error e => .error e
      | .ok byteString =>
        let byteString :=
          if byteString.length < 8 then
            byteString ++ List.replicate (8 - byteString.length) '0'
          else byteString
        match bitset8 byteString with
        | .error e => .error e
        | .ok v => encodeLoop binary fuel (i + 8) (bytesList ++ [toByte v])
    else .ok bytesList

/-- Embedding of `binaryStringToBytes` (`main.cpp` lines 52-66). -/
def binaryStringToBytes (binary : List Char) : Except Fault (List Byte) :=
  encodeLoop binary binary.length 0 []

/-- Embedding of `introduceErrors` (`main.cpp` lines 69-75) with `remaining`
iterations left to run; the state is the buffer and the number of `rand()`
draws consumed so far (`rand n` is the value of the `n`-th call of `rand()`,
a non-negative `int`). Each iteration draws twice:
`byteIndex = rand() % data.size()`, `bitIndex = rand() % 8`, then
`data[byteIndex] ^= (1 << bitIndex)`; `% data.size()` on an empty buffer is
a division by zero. -/
def introduceErrorsLoop (rand : Nat → Nat) :
    Nat → List Byte × Nat → Except Fault (List Byte × Nat)
  | 0, st => .ok st
  | remaining + 1, (data, drawn) =>
    if data.length = 0 then .error .divisionByZero
    else
      let byteIndex := rand drawn % data.length
      let bitIndex := rand (drawn + 1) % 8
      match data[byteIndex]? with
      | none => .error .outOfBounds
      | some b =>
        introduceErrorsLoop rand remaining
          (data.set byteIndex (toByte (b.val ^^^ (1 <<< bitIndex))), drawn + 2)

/-- Embedding of `introduceErrors(data, numErrors)`: the loop
`for (int i = 0; i < numErrors; ++i)` runs `numErrors` times when that is
positive and not at all otherwise. -/
def introduceErrors (rand : Nat → Nat) (data : List Byte) (numErrors : Int) (drawn : Nat) :
    Except Fault (List Byte × Nat) :=
  introduceErrorsLoop rand numErrors.toNat (data, drawn)

/-- The two `push_back` calls of `simulateBinaryTransmission`
(`main.cpp` lines 102-103): `(checksum >> 8) & 0xFF` then `checksum & 0xFF`. -/
def appendChecksum (data : List Byte) (checksum : Nat) : List Byte :=
  (data ++ [toByte ((checksum >>> 8) &&& 0xFF)]) ++ [toByte (checksum &&& 0xFF)]

/-- The single bit flip `data[i] ^= (1 << j)` of the injector, as a buffer
update at a given byte index and bit index. -/
def flipBit (data : List Byte) (i j : Nat) : List Byte :=
  match data[i]? with
  | none => data
  | some b => data.set i (toByte (b.val ^^^ (1 <<< j)))

/-- The exact (unbounded) sum of the big-endian 16-bit words
`data[0]*256 + data[1]`, `data[2]*256 + data[3]`, ... of a buffer; a trailing
unpaired byte is not a word. Used on padded buffers only. -/
def wordSum : List Byte → Nat
  | hi :: lo :: rest => (hi.val * 256 + lo.val) + wordSum rest
  | _ => 0

/-- One's-complement normal form of an exact sum: `0` stays `0`, a positive
sum is brought into `1 ..= 0xFFFF` modulo `0xFFFF`. -/
def endAround (s : Nat) : Nat :=
  if s = 0 then 0 else (s - 1) % 65535 + 1

/-- The weight with which the byte at index `i` enters `wordSum`:
`256` for the high byte of a word, `1` for the low byte. -/
def byteWeight (i : Nat) : Nat :=
  if i % 2 = 0 then 256 else 1

/-- The bit at position `p` of a binary string as the codec reads it: `1` when
`p` is inside the string and the character there is `'1'`, `0` otherwise. -/
def bitAt (s : List Char) (p : Nat) : Nat :=
  if s[p]? = some '1' then 1 else 0

/-- The value of the `k`-th 8-character chunk of a binary string read most
significant bit first, characters past the end of the string read as `'0'`:
the sum over `t < 8` of `bitAt s (8 * k + t) * 2 ^ (7 - t)`. -/
def byteValue (s : List Char) (k : Nat) : Nat :=
  ((List.range 8).map (fun t => bitAt s (8 * k + t) * 2 ^ (7 - t))).sum

/-- The Step 4 display loop of `simulateBinaryTransmission`
(`main.cpp` lines 104-107), started at index `i` with the words printed so
far: `for (; i < data.size(); i += 2) { word = (data[i] << 8) | data[i+1]; ... }`.
The buffer is used as it is (no padding); both element reads are checked. -/
def wordsLoop (data : List Byte) : Nat → Nat → List Nat → Except Fault (List Nat)
  | 0, i, printed =>
    if i < data.length then .error .outOfFuel else .ok printed
  | fuel + 1, i, printed =>
    if i < data.length then
      match data[i]?, data[i + 1]? with
      | some hi, some lo =>
        let word := ((hi.val <<< 8) ||| lo.val) % 2 ^ 16
        wordsLoop data fuel (i + 2) (printed ++ [word])
      | _, _ => .error .outOfBounds
    else .ok printed

/-- What one run of `simulateBinaryTransmission` computes and reports. -/
structure Transmission where
  /-- Step 2: the bytes of the input string. -/
  data : List Byte
  /-- Step 3: the sender checksum. -/
  checksum : Nat
  /-- Step 4: the buffer after the two `push_back` calls. -/
  sent : List Byte
  /-- Step 4: the 16-bit words printed by the display loop. -/
  words : List Nat
  /-- Step 5: the variable `errorBits` (`0` on a clean transmission). -/
  errorBits : Int
  /-- The buffer that is given to `verifyChecksum`. -/
  received : List Byte
  /-- The value `receiverSum` returned by `verifyChecksum`. -/
  receiverSum : Nat
  /-- Whether the branch `receiverSum == 0xFFFF` (no error detected, data is
  valid) was reported rather than the branch that reports corrupted data. -/
  valid : Bool
  /-- The number of `rand()` draws consumed when the run ends. -/
  drawn : Nat

/-- Embedding of `simulateBinaryTransmission` (`main.cpp` lines 78-134) on
the random stream `rand`, `drawn` draws already consumed. The steps run in
the order of the source and a fault of any of them ends the run: the codec
(Step 2), the engine (Step 3), the display loop of Step 4, which runs on the
buffer after the two `push_back` calls and before the first `rand()`, the
injector (Step 5) and the verification. -/
def simulateBinaryTransmission (rand : Nat → Nat) (binaryInput : List Char) (drawn : Nat) :
    Except Fault Transmission :=
  match binaryStringToBytes binaryInput with
  | .error e => .error e
  | .ok data =>
    match computeChecksum data with
    | .error e => .error e
    | .ok checksum =>
      let sent := appendChecksum data checksum
      match wordsLoop sent sent.length 0 [] with
      | .error e => .error e
      | .ok words =>
        let randomChance := rand drawn % 100
        let step5 : Except Fault (Int × List Byte × Nat) :=
          if randomChance < 10 then
            let errorBits : Int := Int.ofNat (rand (drawn + 1) % 3 + 1)
            match introduceErrors rand sent errorBits (drawn + 2) with
            | .error e => .error e
            | .ok (received, drawn1) => .ok (errorBits, received, drawn1)
          else .ok (0, sent, drawn + 1)
        match step5 with
        | .error e => .error e
        | .ok (errorBits, received, drawn1) =>
          match verifyChecksum received with
          | .error e => .error e
          | .ok receiverSum =>
            .ok { data := data, checksum := checksum, sent := sent, words := words,
                  errorBits := errorBits, received := received, receiverSum := receiverSum,
                  valid := receiverSum == 0xFFFF, drawn := drawn1 }

/-- The deferred fold of the standard Internet checksum: while the sum
exceeds `0xFFFF`, replace it by `(s & 0xFFFF) + (s >> 16)`. -/
def foldCarries (s : Nat) : Nat :=
  if s ≤ 0xFFFF then s else foldCarries ((s &&& 0xFFFF) + (s >>> 16))
termination_by s
decreasing_by
  rw [Nat.and_pow_two_sub_one_eq_mod s 16, Nat.shiftRight_eq_div_pow]
  omega

/-- The deferred-fold reference for the verification value: add all
big-endian 16-bit words of the zero-padded buffer into an unbounded sum, then
fold the carries. -/
def referenceSum (data : List Byte) : Nat :=
  foldCarries (wordSum (pad data))

/-- The loop of the checksum engine instrumented: for every iteration it
runs, the accumulator before the word is added, the exact (untruncated) sum
`totalSum + word`, and the accumulator after the fold. Same reads, same
arithmetic and same control flow as `sumLoop`. -/
def sumTrace (data : List Byte) : Nat → Nat → Nat → List (Nat × Nat × Nat)
  | 0, _, _ => []
  | fuel + 1, i, totalSum =>
    if i < data.length then
      match data[i]?, data[i + 1]? with
      | some hi, some lo =>
        let word := ((hi.val <<< 8) ||| lo.val) % 2 ^ 16
        let added := totalSum + word
        let totalSum1 := added % 2 ^ 32
        let totalSum2 :=
          if totalSum1 > 0xFFFF then ((totalSum1 &&& 0xFFFF) + 1) % 2 ^ 32 else totalSum1
        (totalSum, added, totalSum2) :: sumTrace data fuel (i + 2) totalSum2
      | _, _ => []
    else []

/-! ## The checksum engine -/

theorem word_eq (hi lo : Byte) :
    ((hi.val <<< 8) ||| lo.val) % 2 ^ 16 = hi.val * 256 + lo.val := by
  have hlo : lo.val < 2 ^ 8 := lo.isLt
  have h : 2 ^ 8 * hi.val + lo.val = 2 ^ 8 * hi.val ||| lo.val := Nat.mul_add_lt_is_or hlo hi.val
  rw [Nat.shiftLeft_eq, Nat.mul_comm, ← h]
  have := hi.isLt
  have := lo.isLt
  omega

theorem mask16_eq (x : Nat) : x &&& 0xFFFF = x % 65536 :=
  Nat.and_pow_two_sub_one_eq_mod x 16

theorem endAround_le (s : Nat) : endAround s ≤ 65535 := by
  unfold endAround
  split <;> omega

theorem endAround_eq_zero_iff (s : Nat) : endAround s = 0 ↔ s = 0 := by
  unfold endAround
  split <;> omega

theorem endAround_eq_ffff_iff (s : Nat) :
    endAround s = 65535 ↔ 0 < s ∧ s % 65535 = 0 := by
  unfold endAround
  split <;> omega

theorem endAround_of_le (s : Nat) (h : s ≤ 65535) : endAround s = s := by
  unfold endAround
  split <;> omega

/-- One iteration of the loop body on an accumulator that fits 16 bits. -/
theorem fold_step (acc w : Nat) (hacc : acc ≤ 65535) (hw : w ≤ 65535) :
    (if (acc + w) % 2 ^ 32 > 0xFFFF then ((((acc + w) % 2 ^ 32) &&& 0xFFFF) + 1) % 2 ^ 32
      else (acc + w) % 2 ^ 32)
      = if acc + w > 65535 then acc + w - 65535 else acc + w := by
  rw [mask16_eq]
  split <;> split <;> omega

theorem endAround_step (acc w s : Nat) (hacc : acc ≤ 65535) (hw : w ≤ 65535) :
    endAround ((if acc + w > 65535 then acc + w - 65535 else acc + w) + s)
      = endAround (acc + (w + s)) := by
  unfold endAround
  split <;> split <;> split <;> omega

theorem wordSum_cons_cons (hi lo : Byte) (rest : List Byte) :
    wordSum (hi :: lo :: rest) = (hi.val * 256 + lo.val) + wordSum rest := rfl

/-- The loop, run on an even-sized buffer from an even index with an
accumulator that fits 16 bits and with enough fuel, returns the normal form of
the accumulator plus the exact sum of the remaining words. -/
theorem sumLoop_eq (data : List Byte) (hlen : data.length % 2 = 0) :
    ∀ (fuel i totalSum : Nat), i % 2 = 0 → data.length ≤ i + 2 * fuel → totalSum ≤ 65535 →
      sumLoop data fuel i totalSum = .ok (endAround (totalSum + wordSum (data.drop i))) := by
  intro fuel
  induction fuel with
  | zero =>
    intro i acc _ hfuel hacc
    have hi : ¬ i < data.length := by omega
    have hdrop : data.drop i = [] := List.drop_eq_nil_of_le (by omega)
    simp only [sumLoop, hi, if_false, hdrop, wordSum, Nat.add_zero, endAround_of_le acc hacc]
  | succ fuel ih =>
    intro i acc hi2 hfuel hacc
    by_cases hi : i < data.length
    · have hi1 : i + 1 < data.length := by omega
      have hdrop : data.drop i = data[i] :: data[i + 1] :: data.drop (i + 2) := by
        rw [List.drop_eq_getElem_cons hi, List.drop_eq_getElem_cons hi1]
      have hw : data[i].val * 256 + data[i + 1].val ≤ 65535 := by
        have := data[i].isLt
        have := data[i + 1].isLt
        omega
      simp only [sumLoop, hi, if_true, List.getElem?_eq_getElem hi, List.getElem?_eq_getElem hi1,
        word_eq]
      rw [fold_step acc _ hacc hw, ih (i + 2) _ (by omega) (by omega) (by split <;> omega),
        hdrop, wordSum_cons_cons, endAround_step acc _ _ hacc hw]
    · have hdrop : data.drop i = [] := List.drop_eq_nil_of_le (by omega)
      simp only [sumLoop, hi, if_false, hdrop, wordSum, Nat.add_zero, endAround_of_le acc hacc]

theorem pad_length_even (data : List Byte) : (pad data).length % 2 = 0 := by
  unfold pad
  split
  · simp only [List.length_append, List.length_singleton]; omega
  · omega

theorem pad_of_odd (data : List Byte) (h : data.length % 2 = 1) : pad data = data ++ [0x00] := by
  unfold pad
  rw [if_pos (by omega)]

theorem pad_of_even (data : List Byte) (h : data.length % 2 = 0) : pad data = data := by
  unfold pad
  rw [if_neg (by omega)]

/-- Closed form of `verifyChecksum`. -/
theorem verifyChecksum_eq (data : List Byte) :
    verifyChecksum data = .ok (endAround (wordSum (pad data))) := by
  unfold verifyChecksum
  simp only []
  rw [sumLoop_eq (pad data) (pad_length_even data) _ 0 0 (by omega) (by omega) (by omega)]
  simp only [List.drop_zero, Nat.zero_add, mask16_eq]
  have := endAround_le (wordSum (pad data))
  congr 1
  omega

/-- Closed form of `computeChecksum`. -/
theorem computeChecksum_eq (data : List Byte) :
    computeChecksum data = .ok (65535 - endAround (wordSum (pad data))) := by
  unfold computeChecksum
  simp only []
  rw [sumLoop_eq (pad data) (pad_length_even data) _ 0 0 (by omega) (by omega) (by omega)]
  simp only [List.drop_zero, Nat.zero_add, mask16_eq]
  have := endAround_le (wordSum (pad data))
  congr 1
  omega

theorem xor_ffff (v : Nat) (hv : v ≤ 65535) : 0xFFFF ^^^ v = 65535 - v := by
  have hlt : v < 2 ^ 16 := by omega
  have key : (2 ^ 16 - 1) ^^^ v = 2 ^ 16 - (v + 1) := by
    apply Nat.eq_of_testBit_eq
    intro i
    rw [Nat.testBit_xor, Nat.testBit_two_pow_sub_one, Nat.testBit_two_pow_sub_succ hlt]
    by_cases hi : i < 16
    · simp [hi]
    · have hv2 : v < 2 ^ i := lt_of_lt_of_le hlt (Nat.pow_le_pow_right (by omega) (by omega))
      simp [hi, Nat.testBit_lt_two_pow hv2]
  have h1 : (0xFFFF : Nat) = 2 ^ 16 - 1 := by norm_num
  rw [h1, key]
  omega

theorem toByte_val (n : Nat) : (toByte n).val = n % 256 := rfl

theorem toByte_val_of_lt (n : Nat) (h : n < 256) : (toByte n).val = n := by
  rw [toByte_val, Nat.mod_eq_of_lt h]

theorem flip_lt (b : Byte) (j : Nat) (hj : j < 8) : b.val ^^^ (1 <<< j) < 256 := by
  have h1 : b.val < 2 ^ 8 := b.isLt
  have h2 : 1 <<< j < 2 ^ 8 := by
    rw [Nat.one_shiftLeft]
    exact Nat.pow_lt_pow_right (by omega) hj
  exact Nat.xor_lt_two_pow h1 h2

/-- Flipping the same bit of a byte twice gives the byte back. -/
theorem flip_flip (b : Byte) (j : Nat) (hj : j < 8) :
    toByte ((toByte (b.val ^^^ (1 <<< j))).val ^^^ (1 <<< j)) = b := by
  apply Fin.ext
  rw [toByte_val_of_lt _ (flip_lt _ j hj), toByte_val_of_lt _ (flip_lt b j hj),
    Nat.xor_assoc, Nat.xor_self, Nat.xor_zero]

set_option maxRecDepth 100000 in
theorem xor_bit_cases : ∀ j : Fin 8, ∀ b : Fin 256,
    ((b.val ^^^ (1 <<< j.val)) % 256 = b.val + 2 ^ j.val) ∨
    ((b.val ^^^ (1 <<< j.val)) % 256 + 2 ^ j.val = b.val) := by
  decide

/-- A bit flip changes the value of a byte by exactly `2 ^ j`, up or down. -/
theorem flip_val (b : Byte) (j : Nat) (hj : j < 8) :
    (toByte (b.val ^^^ (1 <<< j))).val = b.val + 2 ^ j ∨
    (toByte (b.val ^^^ (1 <<< j))).val + 2 ^ j = b.val :=
  xor_bit_cases ⟨j, hj⟩ b

theorem byteWeight_zero : byteWeight 0 = 256 := rfl

theorem byteWeight_one : byteWeight 1 = 1 := rfl

theorem byteWeight_add_two (i : Nat) : byteWeight (i + 2) = byteWeight i := by
  unfold byteWeight
  rw [Nat.add_mod_right]

/-- Replacing one byte of an even-sized buffer moves the exact word sum by the
change of that byte times its weight. -/
theorem wordSum_set : ∀ (l : List Byte) (i : Nat) (b : Byte) (hi : i < l.length),
    l.length % 2 = 0 →
    wordSum (l.set i b) + l[i].val * byteWeight i = wordSum l + b.val * byteWeight i
  | [], _, _, hi, _ => absurd hi (Nat.not_lt_zero _)
  | [_], _, _, _, hlen => by simp at hlen
  | hi :: lo :: rest, 0, b, _, _ => by
    simp only [List.set_cons_zero, wordSum_cons_cons, List.getElem_cons_zero, byteWeight_zero]
    omega
  | hi :: lo :: rest, 1, b, _, _ => by
    simp only [List.set_cons_succ, List.set_cons_zero, wordSum_cons_cons, List.getElem_cons_succ,
      List.getElem_cons_zero, byteWeight_one]
    omega
  | hi :: lo :: rest, i + 2, b, h, hlen => by
    have h' : i < rest.length := by simpa using h
    have hlen' : rest.length % 2 = 0 := by
      simp only [List.length_cons] at hlen
      omega
    have ih := wordSum_set rest i b h' hlen'
    simp only [List.set_cons_succ, wordSum_cons_cons, List.getElem_cons_succ, byteWeight_add_two]
    omega

theorem pad_set (data : List Byte) (i : Nat) (b : Byte) (hi : i < data.length) :
    pad (data.set i b) = (pad data).set i b := by
  unfold pad
  rw [List.length_set]
  split
  · rw [List.set_append_left i b hi]
  · rfl

theorem length_le_pad (data : List Byte) : data.length ≤ (pad data).length := by
  unfold pad
  split
  · simp
  · exact Nat.le_refl _

theorem pad_getElem (data : List Byte) (i : Nat) (hi : i < data.length)
    (hi' : i < (pad data).length) : (pad data)[i] = data[i] := by
  unfold pad
  split
  · exact List.getElem_append_left hi
  · rfl

/-- The loop reads past the end of an odd-sized buffer that was not padded:
the bounds check of the embedding is live. -/
theorem sumLoop_unpadded_faults :
    sumLoop [0x01, 0x02, 0x03] 3 0 0 = .error .outOfBounds := rfl

/-! ## Claims about the checksum engine -/

/-- C1 (the code at the failing input): the binary string `101` encodes to the
one-byte buffer `[0xA0]`, whose checksum is `0x5FFF`; after appending the
checksum high byte first, the uncorrupted buffer `[0xA0, 0x5F, 0xFF]` verifies
to `0x9F60`, not to `0xFFFF`. -/
theorem roundTrip_odd_length_fails :
    binaryStringToBytes ['1', '0', '1'] = .ok [0xA0] ∧
    computeChecksum [0xA0] = .ok 0x5FFF ∧
    appendChecksum [0xA0] 0x5FFF = [0xA0, 0x5F, 0xFF] ∧
    verifyChecksum (appendChecksum [0xA0] 0x5FFF) = .ok 0x9F60 :=
  ⟨rfl, rfl, rfl, rfl⟩

/-- C2: in a buffer `D` that verifies to `0xFFFF`, XOR-ing any one byte
`D[i]` with `1 << j` (`j < 8`) gives a buffer whose verification returns a
value different from `0xFFFF`. -/
theorem single_bit_flip_detected (D : List Byte) (i j : Nat)
    (hvalid : verifyChecksum D = .ok 0xFFFF) (hi : i < D.length) (hj : j < 8) :
    ∃ v, verifyChecksum (D.set i (toByte (D[i].val ^^^ (1 <<< j)))) = .ok v ∧ v ≠ 0xFFFF := by
  refine ⟨_, verifyChecksum_eq _, ?_⟩
  rw [verifyChecksum_eq] at hvalid
  have hS : endAround (wordSum (pad D)) = 65535 := by
    injection hvalid
  rw [endAround_eq_ffff_iff] at hS
  have hi' : i < (pad D).length := lt_of_lt_of_le hi (length_le_pad D)
  have hset := wordSum_set (pad D) i (toByte (D[i].val ^^^ (1 <<< j))) hi' (pad_length_even D)
  rw [pad_getElem D i hi hi'] at hset
  rw [pad_set D i _ hi]
  intro hbad
  rw [show (0xFFFF : Nat) = 65535 from rfl, endAround_eq_ffff_iff] at hbad
  have hw : byteWeight i = 256 ∨ byteWeight i = 1 := by
    unfold byteWeight
    split
    · exact Or.inl rfl
    · exact Or.inr rfl
  have hpow : 0 < 2 ^ j ∧ 2 ^ j ≤ 128 := by
    refine ⟨Nat.two_pow_pos j, ?_⟩
    have : 2 ^ j ≤ 2 ^ 7 := Nat.pow_le_pow_right (by omega) (by omega)
    simpa using this
  have hflip := flip_val D[i] j hj
  generalize toByte (D[i].val ^^^ (1 <<< j)) = b at hset hbad hflip
  rcases hflip with hup | hdown
  · rw [hup, Nat.add_mul] at hset
    rcases hw with hw | hw <;> rw [hw] at hset <;> omega
  · rw [← hdown, Nat.add_mul] at hset
    rcases hw with hw | hw <;> rw [hw] at hset <;> omega

/-- Witness of C2 on the valid buffer `[0x48, 0x65, 0xB7, 0x9A]`, bit 0 of byte 1. -/
theorem single_bit_flip_detected_witness :
    verifyChecksum [0x48, 0x65, 0xB7, 0x9A] = .ok 0xFFFF ∧
    ∃ v, verifyChecksum [0x48, 0x64, 0xB7, 0x9A] = .ok v ∧ v ≠ 0xFFFF :=
  ⟨rfl, by
    have h := single_bit_flip_detected [0x48, 0x65, 0xB7, 0x9A] 1 0 rfl (by decide) (by decide)
    exact h⟩

/-- C3: for every buffer both functions return, and the checksum is the
verification value XOR-ed with `0xFFFF`; the two values add up to `0xFFFF`. -/
theorem complement_law (B : List Byte) :
    ∃ c v, computeChecksum B = .ok c ∧ verifyChecksum B = .ok v ∧
      c = 0xFFFF ^^^ v ∧ c + v = 0xFFFF := by
  have hle := endAround_le (wordSum (pad B))
  refine ⟨_, _, computeChecksum_eq B, verifyChecksum_eq B, ?_, ?_⟩
  · rw [xor_ffff _ hle]
  · omega

/-- C6: on every buffer (empty and odd-sized ones included) the two functions
of the engine return a value: the loop ends within the fuel supplied and none
of its reads `data[i]`, `data[i + 1]` is out of bounds. -/
theorem engine_total (data : List Byte) :
    (∃ c, computeChecksum data = .ok c) ∧ (∃ v, verifyChecksum data = .ok v) :=
  ⟨⟨_, computeChecksum_eq data⟩, ⟨_, verifyChecksum_eq data⟩⟩

/-- One iteration of the injector on a non-empty buffer is the bit flip at the
drawn position and consumes two draws. -/
theorem introduceErrorsLoop_succ (rand : Nat → Nat) (n : Nat) (data : List Byte) (drawn : Nat)
    (hne : data.length ≠ 0) :
    introduceErrorsLoop rand (n + 1) (data, drawn) =
      introduceErrorsLoop rand n
        (flipBit data (rand drawn % data.length) (rand (drawn + 1) % 8), drawn + 2) := by
  have hlt : rand drawn % data.length < data.length := Nat.mod_lt _ (Nat.pos_of_ne_zero hne)
  simp only [introduceErrorsLoop, flipBit, hne, if_false, List.getElem?_eq_getElem hlt]

theorem flipBit_length (data : List Byte) (i j : Nat) : (flipBit data i j).length = data.length := by
  unfold flipBit
  split
  · rfl
  · exact List.length_set _ _ _

theorem set_getElem_same (l : List Byte) (i : Nat) (h : i < l.length) : l.set i l[i] = l := by
  apply List.ext_getElem (List.length_set _ _ _)
  intro n h1 h2
  rw [List.getElem_set]
  split
  · subst i
    rfl
  · rfl

/-- Flipping the same bit of a buffer twice gives the buffer back. -/
theorem flipBit_flipBit (data : List Byte) (i j : Nat) (hi : i < data.length) (hj : j < 8) :
    flipBit (flipBit data i j) i j = data := by
  have h1 : flipBit data i j = data.set i (toByte (data[i].val ^^^ (1 <<< j))) := by
    simp only [flipBit, List.getElem?_eq_getElem hi]
  have hi' : i < (data.set i (toByte (data[i].val ^^^ (1 <<< j)))).length := by
    rw [List.length_set]
    exact hi
  rw [h1]
  simp only [flipBit, List.getElem?_eq_getElem hi', List.getElem_set_self, List.set_set,
    flip_flip _ j hj]
  exact set_getElem_same data i hi

/-- C7: on a non-empty buffer `D`, `introduceErrors` with count 2 and a random
source whose draws select byte `i` and bit `j` in both iterations returns the
buffer `D` itself (four draws consumed), so the verification of the result
is the verification of `D`. -/
theorem double_flip_cancels (rand : Nat → Nat) (D : List Byte) (i j drawn : Nat)
    (hi : i < D.length) (hj : j < 8)
    (h1 : rand drawn % D.length = i) (h2 : rand (drawn + 1) % 8 = j)
    (h3 : rand (drawn + 2) % D.length = i) (h4 : rand (drawn + 3) % 8 = j) :
    introduceErrors rand D 2 drawn = .ok (D, drawn + 4) ∧
    (introduceErrors rand D 2 drawn).map (fun r => verifyChecksum r.1)
      = .ok (verifyChecksum D) := by
  have hne : D.length ≠ 0 := by omega
  have hne' : (flipBit D i j).length ≠ 0 := by rw [flipBit_length]; exact hne
  have key : introduceErrors rand D 2 drawn = .ok (D, drawn + 4) := by
    show introduceErrorsLoop rand 2 (D, drawn) = .ok (D, drawn + 4)
    rw [introduceErrorsLoop_succ rand 1 D drawn hne, h1, h2,
      introduceErrorsLoop_succ rand 0 _ _ hne', flipBit_length, h3, h4,
      flipBit_flipBit D i j hi hj]
    rfl
  exact ⟨key, by rw [key]; rfl⟩

/-- Witness of C7: the buffer `[0x48, 0x65]` and a source that always draws 9
(byte `9 % 2 = 1`, bit `9 % 8 = 1`). -/
theorem double_flip_cancels_witness :
    introduceErrors (fun _ => 9) [0x48, 0x65] 2 0 = .ok ([0x48, 0x65], 4) ∧
    (introduceErrors (fun _ => 9) [0x48, 0x65] 2 0).map (fun r => verifyChecksum r.1)
      = .ok (verifyChecksum [0x48, 0x65]) :=
  double_flip_cancels (fun _ => 9) [0x48, 0x65] 1 1 0 (by decide) (by decide) rfl rfl rfl rfl

/-- C8: the empty string encodes to the empty buffer, whose checksum is
`0xFFFF` and whose verification value is `0x0000`. -/
theorem empty_input :
    binaryStringToBytes [] = .ok [] ∧
    computeChecksum [] = .ok 0xFFFF ∧
    verifyChecksum [] = .ok 0x0000 :=
  ⟨rfl, rfl, rfl⟩

/-- C9: the string `0100100001100101` encodes to `[0x48, 0x65]`, the checksum
of that buffer is `0xB79A`, appending it gives `[0x48, 0x65, 0xB7, 0x9A]`, and
that buffer verifies to `0xFFFF`. -/
theorem regression_vector :
    binaryStringToBytes
      ['0', '1', '0', '0', '1', '0', '0', '0', '0', '1', '1', '0', '0', '1', '0', '1']
      = .ok [0x48, 0x65] ∧
    computeChecksum [0x48, 0x65] = .ok 0xB79A ∧
    appendChecksum [0x48, 0x65] 0xB79A = [0x48, 0x65, 0xB7, 0x9A] ∧
    verifyChecksum [0x48, 0x65, 0xB7, 0x9A] = .ok 0xFFFF :=
  ⟨rfl, rfl, rfl, rfl⟩

theorem pad_append_zero (B : List Byte) (hodd : B.length % 2 = 1) :
    pad (B ++ [0x00]) = pad B := by
  rw [pad_of_odd B hodd]
  apply pad_of_even
  simp only [List.length_append, List.length_singleton]
  omega

/-- C10: an odd-sized buffer `B` and `B ++ [0x00]` have the same verification
value and the same checksum; the verification value of a one-byte buffer `[b]`
is `b * 256`; the string `101` encodes to `[0xA0]`, which reduces to `0xA000`
and has checksum `0x5FFF`. -/
theorem odd_length_padding (B : List Byte) (hodd : B.length % 2 = 1) :
    (∃ v, verifyChecksum B = .ok v ∧ verifyChecksum (B ++ [0x00]) = .ok v) ∧
    (∃ c, computeChecksum B = .ok c ∧ computeChecksum (B ++ [0x00]) = .ok c) ∧
    (∀ b : Byte, verifyChecksum [b] = .ok (b.val * 256)) ∧
    binaryStringToBytes ['1', '0', '1'] = .ok [0xA0] ∧
    verifyChecksum [0xA0] = .ok 0xA000 ∧
    computeChecksum [0xA0] = .ok 0x5FFF := by
  refine ⟨⟨_, verifyChecksum_eq B, ?_⟩, ⟨_, computeChecksum_eq B, ?_⟩, ?_, rfl, rfl, rfl⟩
  · rw [verifyChecksum_eq, pad_append_zero B hodd]
  · rw [computeChecksum_eq, pad_append_zero B hodd]
  · intro b
    rw [verifyChecksum_eq]
    have hb := b.isLt
    have hs : wordSum (pad [b]) = b.val * 256 := by
      show (b.val * 256 + 0) + 0 = b.val * 256
      omega
    rw [hs, endAround_of_le _ (by omega)]

/-- Witness of C10 on the three-byte buffer `[0x01, 0x02, 0x03]`. -/
theorem odd_length_padding_witness :
    (∃ v, verifyChecksum [0x01, 0x02, 0x03] = .ok v ∧
      verifyChecksum ([0x01, 0x02, 0x03] ++ [0x00]) = .ok v) ∧
    (∃ c, computeChecksum [0x01, 0x02, 0x03] = .ok c ∧
      computeChecksum ([0x01, 0x02, 0x03] ++ [0x00]) = .ok c) ∧
    (∀ b : Byte, verifyChecksum [b] = .ok (b.val * 256)) ∧
    binaryStringToBytes ['1', '0', '1'] = .ok [0xA0] ∧
    verifyChecksum [0xA0] = .ok 0xA000 ∧
    computeChecksum [0xA0] = .ok 0x5FFF :=
  odd_length_padding [0x01, 0x02, 0x03] (by decide)

/-! ## The bit/byte codec -/

theorem byteValue_eq (s : List Char) (k : Nat) :
    byteValue s k =
      bitAt s (8 * k) * 128 + bitAt s (8 * k + 1) * 64 + bitAt s (8 * k + 2) * 32 +
      bitAt s (8 * k + 3) * 16 + bitAt s (8 * k + 4) * 8 + bitAt s (8 * k + 5) * 4 +
      bitAt s (8 * k + 6) * 2 + bitAt s (8 * k + 7) := by
  simp only [byteValue, List.range, List.range.loop, List.map, List.sum_cons, List.sum_nil]
  norm_num
  omega

theorem bitAt_le_one (s : List Char) (p : Nat) : bitAt s p ≤ 1 := by
  unfold bitAt
  split <;> omega

theorem bitAt_of_le (s : List Char) (p : Nat) (h : s.length ≤ p) : bitAt s p = 0 := by
  unfold bitAt
  rw [List.getElem?_eq_none h]
  simp

theorem byteValue_lt (s : List Char) (k : Nat) : byteValue s k < 256 := by
  rw [byteValue_eq]
  have h0 := bitAt_le_one s (8 * k)
  have h1 := bitAt_le_one s (8 * k + 1)
  have h2 := bitAt_le_one s (8 * k + 2)
  have h3 := bitAt_le_one s (8 * k + 3)
  have h4 := bitAt_le_one s (8 * k + 4)
  have h5 := bitAt_le_one s (8 * k + 5)
  have h6 := bitAt_le_one s (8 * k + 6)
  have h7 := bitAt_le_one s (8 * k + 7)
  omega

/-- The 8-character chunk the loop body builds at index `i`: `substr(i, 8)`
right-padded with `'0'`. -/
theorem chunk_length (s : List Char) (i : Nat) :
    ((s.drop i).take 8 ++ List.replicate (8 - ((s.drop i).take 8).length) '0').length = 8 := by
  simp only [List.length_append, List.length_take, List.length_drop, List.length_replicate]
  omega

theorem chunk_getElem? (s : List Char) (i t : Nat) (c : Char)
    (h : ((s.drop i).take 8 ++ List.replicate (8 - ((s.drop i).take 8).length) '0')[t]? = some c) :
    (if c = '1' then 1 else 0) = bitAt s (i + t) ∧ (i + t < s.length → s[i + t]? = some c) := by
  by_cases ht : t < ((s.drop i).take 8).length
  · rw [List.getElem?_append_left ht] at h
    have ht8 : t < 8 := by
      simp only [List.length_take] at ht
      omega
    rw [List.getElem?_take_of_lt ht8, List.getElem?_drop] at h
    refine ⟨?_, fun _ => h⟩
    unfold bitAt
    rw [h]
    simp
  · have hlen : s.length ≤ i + t ∨ 8 ≤ t := by
      simp only [List.length_take, List.length_drop] at ht
      omega
    rw [List.getElem?_append_right (by omega)] at h
    have hc : c = '0' := by
      rw [List.getElem?_replicate] at h
      split at h
      · injection h with h
        exact h.symm
      · exact absurd h (by simp)
    have ht8 : t < 8 := by
      rw [List.getElem?_replicate] at h
      split at h
      · rename_i hlt
        omega
      · exact absurd h (by simp)
    have hle : s.length ≤ i + t := by omega
    refine ⟨?_, fun hlt => absurd hlt (by omega)⟩
    rw [bitAt_of_le s _ hle, hc]
    simp

theorem foldl_bits8 (c0 c1 c2 c3 c4 c5 c6 c7 : Char) :
    ([c0, c1, c2, c3, c4, c5, c6, c7].take 8).foldl
        (fun acc c => 2 * acc + (if c == '1' then 1 else 0)) 0 =
      (if c0 = '1' then 1 else 0) * 128 + (if c1 = '1' then 1 else 0) * 64 +
      (if c2 = '1' then 1 else 0) * 32 + (if c3 = '1' then 1 else 0) * 16 +
      (if c4 = '1' then 1 else 0) * 8 + (if c5 = '1' then 1 else 0) * 4 +
      (if c6 = '1' then 1 else 0) * 2 + (if c7 = '1' then 1 else 0) := by
  simp only [List.take, List.foldl, beq_iff_eq]
  omega

/-- On a chunk of a binary string the `bitset<8>` conversion succeeds and
yields the chunk value of the claim. -/
theorem bitset8_chunk (s : List Char) (hbin : ∀ c ∈ s, c = '0' ∨ c = '1') (k : Nat) :
    bitset8 ((s.drop (8 * k)).take 8 ++
        List.replicate (8 - ((s.drop (8 * k)).take 8).length) '0') = .ok (byteValue s k) := by
  have hlen := chunk_length s (8 * k)
  have hget := chunk_getElem? s (8 * k)
  have hall : ((s.drop (8 * k)).take 8 ++
      List.replicate (8 - ((s.drop (8 * k)).take 8).length) '0').all
        (fun c => c == '0' || c == '1') = true := by
    rw [List.all_eq_true]
    intro c hc
    rw [List.mem_append] at hc
    rcases hc with hc | hc
    · have hmem : c ∈ s := List.mem_of_mem_drop (List.mem_of_mem_take hc)
      rcases hbin c hmem with h | h <;> simp [h]
    · rw [List.eq_of_mem_replicate hc]
      rfl
  generalize (s.drop (8 * k)).take 8 ++
      List.replicate (8 - ((s.drop (8 * k)).take 8).length) '0' = P at hlen hget hall
  match P, hlen with
  | [c0, c1, c2, c3, c4, c5, c6, c7], _ =>
    unfold bitset8
    rw [if_pos hall, foldl_bits8, byteValue_eq]
    have h0 := (hget 0 c0 rfl).1
    have h1 := (hget 1 c1 rfl).1
    have h2 := (hget 2 c2 rfl).1
    have h3 := (hget 3 c3 rfl).1
    have h4 := (hget 4 c4 rfl).1
    have h5 := (hget 5 c5 rfl).1
    have h6 := (hget 6 c6 rfl).1
    have h7 := (hget 7 c7 rfl).1
    rw [h0, h1, h2, h3, h4, h5, h6, h7]
    rfl

theorem map_range_succ (g : Nat → Byte) (n : Nat) :
    (List.range (n + 1)).map g = g 0 :: (List.range n).map (fun m => g (m + 1)) := by
  rw [List.range_succ_eq_map, List.map_cons, List.map_map]
  rfl

/-- The bytes the claim assigns to a binary string from chunk `k` on. -/
theorem encodeLoop_eq (s : List Char) (hbin : ∀ c ∈ s, c = '0' ∨ c = '1') :
    ∀ (fuel k : Nat) (bytesList : List Byte), s.length ≤ 8 * k + 8 * fuel →
      encodeLoop s fuel (8 * k) bytesList =
        .ok (bytesList ++
          (List.range ((s.length + 7) / 8 - k)).map (fun m => toByte (byteValue s (k + m)))) := by
  intro fuel
  induction fuel with
  | zero =>
    intro k acc hfuel
    have hi : ¬ 8 * k < s.length := by omega
    have hn : (s.length + 7) / 8 - k = 0 := by omega
    simp only [encodeLoop, hi, if_false, hn, List.range_zero, List.map_nil, List.append_nil]
  | succ fuel ih =>
    intro k acc hfuel
    by_cases hi : 8 * k < s.length
    · have hsub : substr s (8 * k) 8 = .ok ((s.drop (8 * k)).take 8) := by
        unfold substr
        rw [if_neg (by omega)]
      have hn : (s.length + 7) / 8 - k = ((s.length + 7) / 8 - (k + 1)) + 1 := by omega
      have hpad : (if ((s.drop (8 * k)).take 8).length < 8 then
            (s.drop (8 * k)).take 8 ++
              List.replicate (8 - ((s.drop (8 * k)).take 8).length) '0'
          else (s.drop (8 * k)).take 8) =
          (s.drop (8 * k)).take 8 ++
              List.replicate (8 - ((s.drop (8 * k)).take 8).length) '0' := by
        split
        · rfl
        · rename_i hge
          have h0 : 8 - ((s.drop (8 * k)).take 8).length = 0 := by omega
          rw [h0, List.replicate_zero, List.append_nil]
      simp only [encodeLoop, hi, if_true, hsub, hpad, bitset8_chunk s hbin k]
      have hfun : (fun m => toByte (byteValue s (k + 1 + m))) =
          (fun m => toByte (byteValue s (k + (m + 1)))) := by
        funext m
        rw [Nat.add_assoc, Nat.add_comm 1 m]
      rw [show 8 * k + 8 = 8 * (k + 1) by omega, ih (k + 1) _ (by omega), hn,
        map_range_succ, hfun, List.append_assoc, List.singleton_append]
      simp only [Nat.add_zero]
    · have hn : (s.length + 7) / 8 - k = 0 := by omega
      simp only [encodeLoop, hi, if_false, hn, List.range_zero, List.map_nil, List.append_nil]

/-- Closed form of `binaryStringToBytes` on binary strings. -/
theorem binaryStringToBytes_eq (s : List Char) (hbin : ∀ c ∈ s, c = '0' ∨ c = '1') :
    binaryStringToBytes s =
      .ok ((List.range ((s.length + 7) / 8)).map (fun k => toByte (byteValue s k))) := by
  unfold binaryStringToBytes
  have h := encodeLoop_eq s hbin s.length 0 [] (by omega)
  simp only [Nat.mul_zero, Nat.sub_zero, List.nil_append, Nat.zero_add] at h
  exact h

/-- The low `8 * (k + 1) - L` bits of the last chunk value of a string of
length `L`, `8 * k < L ≤ 8 * (k + 1)`, are zero. -/
theorem byteValue_last_low_bits (s : List Char) (k : Nat) (hlo : 8 * k < s.length)
    (hhi : s.length ≤ 8 * k + 8) :
    byteValue s k % 2 ^ (8 * k + 8 - s.length) = 0 := by
  rw [byteValue_eq]
  have h1 : s.length ≤ 8 * k + 1 → bitAt s (8 * k + 1) = 0 := bitAt_of_le s _
  have h2 : s.length ≤ 8 * k + 2 → bitAt s (8 * k + 2) = 0 := bitAt_of_le s _
  have h3 : s.length ≤ 8 * k + 3 → bitAt s (8 * k + 3) = 0 := bitAt_of_le s _
  have h4 : s.length ≤ 8 * k + 4 → bitAt s (8 * k + 4) = 0 := bitAt_of_le s _
  have h5 : s.length ≤ 8 * k + 5 → bitAt s (8 * k + 5) = 0 := bitAt_of_le s _
  have h6 : s.length ≤ 8 * k + 6 → bitAt s (8 * k + 6) = 0 := bitAt_of_le s _
  have h7 : s.length ≤ 8 * k + 7 → bitAt s (8 * k + 7) = 0 := bitAt_of_le s _
  generalize hr : 8 * k + 8 - s.length = r
  have hr7 : r ≤ 7 := by omega
  interval_cases r <;> norm_num <;> omega

/-- C4: on a string `s` of `'0'`/`'1'` characters of length `L`,
`binaryStringToBytes` returns a buffer of exactly `ceil(L / 8)` bytes, and when
`L > 0` the low `8 * ceil(L / 8) - L` bits of its last byte are zero. -/
theorem padding_determinism (s : List Char) (hbin : ∀ c ∈ s, c = '0' ∨ c = '1') :
    ∃ bs, binaryStringToBytes s = .ok bs ∧ bs.length = (s.length + 7) / 8 ∧
      (0 < s.length → ∃ last, bs.getLast? = some last ∧
        last.val % 2 ^ (8 * ((s.length + 7) / 8) - s.length) = 0) := by
  refine ⟨_, binaryStringToBytes_eq s hbin, ?_, ?_⟩
  · rw [List.length_map, List.length_range]
  · intro hpos
    obtain ⟨m, hm⟩ : ∃ m, (s.length + 7) / 8 = m + 1 := ⟨(s.length + 7) / 8 - 1, by omega⟩
    refine ⟨toByte (byteValue s m), ?_, ?_⟩
    · rw [hm, List.range_succ, List.map_append, List.map_singleton, List.getLast?_append]
      rfl
    · rw [toByte_val_of_lt _ (byteValue_lt s m), hm,
        show 8 * (m + 1) - s.length = 8 * m + 8 - s.length by omega]
      exact byteValue_last_low_bits s m (by omega) (by omega)

/-- Witness of C4 on the three-character string `101`. -/
theorem padding_determinism_witness :
    ∃ bs, binaryStringToBytes ['1', '0', '1'] = .ok bs ∧
      bs.length = (['1', '0', '1'].length + 7) / 8 ∧
      (0 < ['1', '0', '1'].length → ∃ last, bs.getLast? = some last ∧
        last.val % 2 ^ (8 * ((['1', '0', '1'].length + 7) / 8) - ['1', '0', '1'].length) = 0) :=
  padding_determinism ['1', '0', '1'] (by decide)

/-- C5: on a string `s` of `'0'`/`'1'` characters, byte `k` of
`binaryStringToBytes s`, for every `k < ceil(len(s) / 8)`, has the value
`byteValue s k`, the sum over `t < 8` of `bit(8k + t) * 2^(7 - t)` where a bit
past the end of the string is `0`; the string `0100100001100101` encodes to
`[0x48, 0x65]`. -/
theorem encoding_values (s : List Char) (hbin : ∀ c ∈ s, c = '0' ∨ c = '1') :
    (∃ bs, binaryStringToBytes s = .ok bs ∧
      ∀ k, k < (s.length + 7) / 8 → bs[k]?.map Fin.val = some (byteValue s k)) ∧
    binaryStringToBytes
      ['0', '1', '0', '0', '1', '0', '0', '0', '0', '1', '1', '0', '0', '1', '0', '1']
      = .ok [0x48, 0x65] := by
  refine ⟨⟨_, binaryStringToBytes_eq s hbin, ?_⟩, rfl⟩
  intro k hk
  rw [List.getElem?_map, List.getElem?_range hk]
  simp only [Option.map_some']
  rw [toByte_val_of_lt _ (byteValue_lt s k)]

/-- Witness of C5 on the eleven-character string `11111111101`. -/
theorem encoding_values_witness :
    (∃ bs, binaryStringToBytes ['1', '1', '1', '1', '1', '1', '1', '1', '1', '0', '1'] = .ok bs ∧
      ∀ k, k < (['1', '1', '1', '1', '1', '1', '1', '1', '1', '0', '1'].length + 7) / 8 →
        bs[k]?.map Fin.val =
          some (byteValue ['1', '1', '1', '1', '1', '1', '1', '1', '1', '0', '1'] k)) ∧
    binaryStringToBytes
      ['0', '1', '0', '0', '1', '0', '0', '0', '0', '1', '1', '0', '0', '1', '0', '1']
      = .ok [0x48, 0x65] :=
  encoding_values ['1', '1', '1', '1', '1', '1', '1', '1', '1', '0', '1'] (by decide)

/-- The chunk values of the regression string, evaluated. -/
theorem byteValue_regression :
    byteValue ['0', '1', '0', '0', '1', '0', '0', '0', '0', '1', '1', '0', '0', '1', '0', '1'] 0
      = 0x48 ∧
    byteValue ['0', '1', '0', '0', '1', '0', '0', '0', '0', '1', '1', '0', '0', '1', '0', '1'] 1
      = 0x65 ∧
    byteValue ['1', '0', '1'] 0 = 0xA0 :=
  ⟨rfl, rfl, rfl⟩

/-! ## The error injector -/

/-- On a non-empty buffer the injector loop returns for every number of
iterations, keeps the size of the buffer and consumes two draws per iteration. -/
theorem introduceErrorsLoop_ok (rand : Nat → Nat) :
    ∀ (n : Nat) (data : List Byte) (drawn : Nat), data.length ≠ 0 →
      ∃ out, introduceErrorsLoop rand n (data, drawn) = .ok (out, drawn + 2 * n) ∧
        out.length = data.length := by
  intro n
  induction n with
  | zero =>
    intro data drawn _
    exact ⟨data, rfl, rfl⟩
  | succ n ih =>
    intro data drawn hne
    have hne1 : (flipBit data (rand drawn % data.length) (rand (drawn + 1) % 8)).length ≠ 0 := by
      rw [flipBit_length]
      exact hne
    obtain ⟨out, hout, hlen⟩ := ih _ (drawn + 2) hne1
    refine ⟨out, ?_, ?_⟩
    · rw [introduceErrorsLoop_succ rand n data drawn hne, hout]
      congr 2
      omega
    · rw [hlen, flipBit_length]

/-- On an empty buffer the first iteration of the injector divides by zero. -/
theorem introduceErrorsLoop_empty (rand : Nat → Nat) (n drawn : Nat) :
    introduceErrorsLoop rand (n + 1) ([], drawn) = .error .divisionByZero := rfl

theorem xor_two_pow_testBit (b j t : Nat) :
    (b ^^^ (1 <<< j)).testBit t = (b.testBit t ^^ decide (j = t)) := by
  rw [Nat.testBit_xor, Nat.one_shiftLeft, Nat.testBit_two_pow]

/-- C11 (the claim at a concrete input): with count 1 on the zero-length
buffer the injector does not return the buffer unchanged; its first iteration
evaluates `rand() % data.size()` with `data.size() = 0`. -/
theorem emptyBuffer_modulo_by_zero :
    introduceErrors (fun _ => 0) [] 1 0 = .error .divisionByZero ∧
    introduceErrors (fun _ => 0) [] 1 0 ≠ .ok ([], 0) :=
  ⟨rfl, fun h => by injection h⟩

/-- C11 (amended): `introduceErrors` has no empty-buffer guard. On the
zero-length buffer every count `> 0` makes the first iteration evaluate
`rand() % 0`, and only a count `≤ 0` is a no-op that returns the buffer
unchanged without drawing. -/
theorem injector_on_empty_buffer (rand : Nat → Nat) (numErrors : Int) (drawn : Nat) :
    introduceErrors rand [] numErrors drawn =
      if 0 < numErrors then .error .divisionByZero else .ok ([], drawn) := by
  unfold introduceErrors
  split
  · rename_i hpos
    obtain ⟨n, hn⟩ : ∃ n, numErrors.toNat = n + 1 := ⟨numErrors.toNat - 1, by omega⟩
    rw [hn]
    rfl
  · rename_i hneg
    have h0 : numErrors.toNat = 0 := by omega
    rw [h0]
    rfl

/-- C12: on a non-empty buffer `D`, one iteration of `introduceErrors` with
draws `r1 = rand drawn`, `r2 = rand (drawn + 1)` returns a buffer of the same
size that agrees with `D` at every index but `r1 % size`, where the byte is
the byte of `D` XOR `1 << (r2 % 8)` and differs from it in exactly the bit
`r2 % 8`; any count keeps the size of the buffer; count 0 returns `D`. -/
theorem injector_effect (rand : Nat → Nat) (D : List Byte) (drawn : Nat) (hne : D ≠ []) :
    (∃ out, introduceErrors rand D 1 drawn = .ok (out, drawn + 2) ∧
      out.length = D.length ∧
      (∀ n, n ≠ rand drawn % D.length → out[n]? = D[n]?) ∧
      ∃ b c, D[rand drawn % D.length]? = some b ∧ out[rand drawn % D.length]? = some c ∧
        c.val = b.val ^^^ (1 <<< (rand (drawn + 1) % 8)) ∧
        ∀ t, c.val.testBit t ≠ b.val.testBit t ↔ t = rand (drawn + 1) % 8) ∧
    (∀ count : Int, ∃ out used, introduceErrors rand D count drawn = .ok (out, used) ∧
      out.length = D.length) ∧
    introduceErrors rand D 0 drawn = .ok (D, drawn) := by
  have hlen : D.length ≠ 0 := fun h => hne (List.length_eq_zero.mp h)
  have hlt : rand drawn % D.length < D.length := Nat.mod_lt _ (Nat.pos_of_ne_zero hlen)
  have hj : rand (drawn + 1) % 8 < 8 := Nat.mod_lt _ (by omega)
  refine ⟨?_, ?_, rfl⟩
  · refine ⟨flipBit D (rand drawn % D.length) (rand (drawn + 1) % 8), ?_, flipBit_length _ _ _,
      ?_, D[rand drawn % D.length],
      toByte (D[rand drawn % D.length].val ^^^ (1 <<< (rand (drawn + 1) % 8))),
      List.getElem?_eq_getElem hlt, ?_, ?_, ?_⟩
    · show introduceErrorsLoop rand 1 (D, drawn) = _
      rw [introduceErrorsLoop_succ rand 0 D drawn hlen]
      rfl
    · intro n hn
      simp only [flipBit, List.getElem?_eq_getElem hlt]
      rw [List.getElem?_set, if_neg (Ne.symm hn)]
    · simp only [flipBit, List.getElem?_eq_getElem hlt]
      rw [List.getElem?_set, if_pos rfl, if_pos hlt]
    · exact toByte_val_of_lt _ (flip_lt _ _ hj)
    · intro t
      rw [toByte_val_of_lt _ (flip_lt _ _ hj), xor_two_pow_testBit]
      by_cases ht : rand (drawn + 1) % 8 = t
      · simp [ht]
      · have ht1 : ¬ t = rand (drawn + 1) % 8 := fun h => ht h.symm
        simp [ht, ht1]
  · intro count
    obtain ⟨out, hout, hl⟩ := introduceErrorsLoop_ok rand count.toNat D drawn hlen
    exact ⟨out, _, hout, hl⟩

/-- Witness of C12 on the buffer `[0x48, 0x65]` with a source that always
draws 9. -/
theorem injector_effect_witness :
    (∃ out, introduceErrors (fun _ => 9) [0x48, 0x65] 1 0 = .ok (out, 0 + 2) ∧
      out.length = [(0x48 : Byte), 0x65].length ∧
      (∀ n, n ≠ 9 % [(0x48 : Byte), 0x65].length → out[n]? = [(0x48 : Byte), 0x65][n]?) ∧
      ∃ b c, [(0x48 : Byte), 0x65][9 % [(0x48 : Byte), 0x65].length]? = some b ∧
        out[9 % [(0x48 : Byte), 0x65].length]? = some c ∧
        c.val = b.val ^^^ (1 <<< (9 % 8)) ∧
        ∀ t, c.val.testBit t ≠ b.val.testBit t ↔ t = 9 % 8) ∧
    (∀ count : Int, ∃ out used,
      introduceErrors (fun _ => 9) [0x48, 0x65] count 0 = .ok (out, used) ∧
      out.length = [(0x48 : Byte), 0x65].length) ∧
    introduceErrors (fun _ => 9) [0x48, 0x65] 0 0 = .ok ([0x48, 0x65], 0) :=
  injector_effect (fun _ => 9) [0x48, 0x65] 0 (by decide)

/-! ## The per-word fold against the exact word sum -/

theorem foldCarries_eq_endAround : ∀ s : Nat, foldCarries s = endAround s := by
  intro s
  induction s using Nat.strong_induction_on with
  | _ s ih =>
    rw [foldCarries]
    split
    · rename_i hle
      exact (endAround_of_le s hle).symm
    · rename_i hgt
      rw [Nat.and_pow_two_sub_one_eq_mod s 16, Nat.shiftRight_eq_div_pow]
      rw [ih _ (by omega)]
      unfold endAround
      split <;> split <;> omega

/-- C14: on every buffer the per-word end-around-carry fold of
`verifyChecksum` returns the value of the deferred-fold reference (exact sum
of the words of the zero-padded buffer, then `(S & 0xFFFF) + (S >> 16)` until
`S ≤ 0xFFFF`), and `computeChecksum` returns its 16-bit complement. -/
theorem fold_matches_reference (B : List Byte) :
    verifyChecksum B = .ok (referenceSum B) ∧
    computeChecksum B = .ok (0xFFFF ^^^ referenceSum B) ∧
    computeChecksum B = .ok (0xFFFF - referenceSum B) := by
  unfold referenceSum
  rw [foldCarries_eq_endAround, xor_ffff _ (endAround_le _)]
  exact ⟨verifyChecksum_eq B, computeChecksum_eq B, computeChecksum_eq B⟩

theorem getLast?_cons_getD (x : Nat × Nat × Nat) (l : List (Nat × Nat × Nat)) (d : Nat) :
    ((x :: l).getLast?.map (fun e => e.2.2)).getD d =
      (l.getLast?.map (fun e => e.2.2)).getD x.2.2 := by
  cases l with
  | nil => rfl
  | cons y l => rw [List.getLast?_cons_cons]; rfl

/-- The instrumented loop on an even-sized buffer from an even index: every
recorded iteration starts from an accumulator that fits 16 bits, its exact sum
is at most `0x1FFFE` and the folded accumulator fits 16 bits again; there is
one record per word; the value `sumLoop` returns is the last folded
accumulator. -/
theorem sumTrace_spec (data : List Byte) (hlen : data.length % 2 = 0) :
    ∀ (fuel i totalSum : Nat), i % 2 = 0 → data.length ≤ i + 2 * fuel → totalSum ≤ 65535 →
      (∀ e ∈ sumTrace data fuel i totalSum,
        e.1 ≤ 65535 ∧ e.2.1 ≤ 131070 ∧
        e.2.2 = (if e.2.1 > 65535 then e.2.1 - 65535 else e.2.1) ∧ e.2.2 ≤ 65535) ∧
      (sumTrace data fuel i totalSum).length = (data.length - i) / 2 ∧
      sumLoop data fuel i totalSum =
        .ok (((sumTrace data fuel i totalSum).getLast?.map (fun e => e.2.2)).getD totalSum) := by
  intro fuel
  induction fuel with
  | zero =>
    intro i acc _ hfuel _
    have hi : ¬ i < data.length := by omega
    refine ⟨fun e he => absurd he (List.not_mem_nil e), ?_, ?_⟩
    · show 0 = (data.length - i) / 2
      omega
    · simp only [sumLoop, hi, if_false]
      rfl
  | succ fuel ih =>
    intro i acc hi2 hfuel hacc
    by_cases hi : i < data.length
    · have hi1 : i + 1 < data.length := by omega
      have hw : data[i].val * 256 + data[i + 1].val ≤ 65535 := by
        have := data[i].isLt
        have := data[i + 1].isLt
        omega
      have hstep := fold_step acc _ hacc hw
      have hnext : (if acc + (data[i].val * 256 + data[i + 1].val) > 65535
          then acc + (data[i].val * 256 + data[i + 1].val) - 65535
          else acc + (data[i].val * 256 + data[i + 1].val)) ≤ 65535 := by
        split <;> omega
      obtain ⟨hall, hcount, hloop⟩ := ih (i + 2) _ (by omega) (by omega) hnext
      have htrace : sumTrace data (fuel + 1) i acc =
          (acc, acc + (data[i].val * 256 + data[i + 1].val),
            if acc + (data[i].val * 256 + data[i + 1].val) > 65535
              then acc + (data[i].val * 256 + data[i + 1].val) - 65535
              else acc + (data[i].val * 256 + data[i + 1].val)) ::
          sumTrace data fuel (i + 2)
            (if acc + (data[i].val * 256 + data[i + 1].val) > 65535
              then acc + (data[i].val * 256 + data[i + 1].val) - 65535
              else acc + (data[i].val * 256 + data[i + 1].val)) := by
        simp only [sumTrace, hi, if_true, List.getElem?_eq_getElem hi,
          List.getElem?_eq_getElem hi1, word_eq]
        rw [hstep]
      refine ⟨?_, ?_, ?_⟩
      · intro e he
        rw [htrace, List.mem_cons] at he
        rcases he with he | he
        · subst he
          refine ⟨hacc, ?_, rfl, hnext⟩
          show acc + (data[i].val * 256 + data[i + 1].val) ≤ 131070
          omega
        · exact hall e he
      · rw [htrace, List.length_cons, hcount]
        omega
      · rw [htrace, getLast?_cons_getD, ← hloop]
        simp only [sumLoop, hi, if_true, List.getElem?_eq_getElem hi,
          List.getElem?_eq_getElem hi1, word_eq]
        rw [hstep]
    · refine ⟨?_, ?_, ?_⟩
      · intro e he
        simp only [sumTrace, hi, if_false] at he
        exact absurd he (List.not_mem_nil e)
      · simp only [sumTrace, hi, if_false, List.length_nil]
        omega
      · simp only [sumLoop, sumTrace, hi, if_false]
        rfl

/-- C15: in every iteration of the loop of `computeChecksum` and
`verifyChecksum` (one per word of the padded buffer) the accumulator is
`≤ 0xFFFF` before the word is added, the exact sum is `≤ 0x1FFFE`, so the
32-bit addition does not wrap, and the accumulator is `≤ 0xFFFF` again after
the one fold `(sum & 0xFFFF) + 1`; the loop returns the last folded
accumulator, which the final mask `& 0xFFFF` leaves unchanged. -/
theorem accumulator_bound (data : List Byte) :
    (∀ e ∈ sumTrace (pad data) (pad data).length 0 0,
      e.1 ≤ 0xFFFF ∧ e.2.1 ≤ 0x1FFFE ∧ e.2.1 % 2 ^ 32 = e.2.1 ∧
      e.2.2 = (if e.2.1 > 0xFFFF then (e.2.1 &&& 0xFFFF) + 1 else e.2.1) ∧
      e.2.2 ≤ 0xFFFF) ∧
    (sumTrace (pad data) (pad data).length 0 0).length = (pad data).length / 2 ∧
    ∃ totalSum, sumLoop (pad data) (pad data).length 0 0 = .ok totalSum ∧
      totalSum = ((sumTrace (pad data) (pad data).length 0 0).getLast?.map
        (fun e => e.2.2)).getD 0 ∧
      totalSum ≤ 0xFFFF ∧ totalSum &&& 0xFFFF = totalSum ∧
      verifyChecksum data = .ok totalSum ∧ computeChecksum data = .ok (0xFFFF - totalSum) := by
  obtain ⟨hall, hcount, hloop⟩ :=
    sumTrace_spec (pad data) (pad_length_even data) (pad data).length 0 0
      (by omega) (by omega) (by omega)
  have hclosed := sumLoop_eq (pad data) (pad_length_even data) (pad data).length 0 0
    (by omega) (by omega) (by omega)
  simp only [List.drop_zero, Nat.zero_add] at hclosed
  have hle := endAround_le (wordSum (pad data))
  refine ⟨?_, ?_, _, hclosed, ?_, hle, ?_, verifyChecksum_eq data, computeChecksum_eq data⟩
  · intro e he
    obtain ⟨h1, h2, h3, h4⟩ := hall e he
    refine ⟨h1, h2, Nat.mod_eq_of_lt (by omega), ?_, h4⟩
    rw [h3, mask16_eq]
    split <;> omega
  · rw [hcount]
    rfl
  · rw [hloop] at hclosed
    injection hclosed with hclosed
    exact hclosed.symm
  · rw [mask16_eq]
    omega

theorem wordSum_append (l : List Byte) (hi lo : Byte) :
    ∀ (n : Nat), l.length = 2 * n → wordSum (l ++ [hi, lo]) = wordSum l + (hi.val * 256 + lo.val) := by
  intro n
  induction n generalizing l with
  | zero =>
    intro hl
    have hnil : l = [] := List.length_eq_zero.mp (by omega)
    subst hnil
    show (hi.val * 256 + lo.val) + 0 = 0 + (hi.val * 256 + lo.val)
    omega
  | succ n ih =>
    intro hl
    match l, hl with
    | a :: b :: rest, hl =>
      have hrest : rest.length = 2 * n := by
        simp only [List.length_cons] at hl
        omega
      simp only [List.cons_append, wordSum_cons_cons, ih rest hrest]
      omega

/-- The two checksum bytes pushed by the orchestrator form the word `c`. -/
theorem checksum_bytes (c : Nat) (hc : c ≤ 65535) :
    (toByte ((c >>> 8) &&& 0xFF)).val * 256 + (toByte (c &&& 0xFF)).val = c ∧
    toByte ((c >>> 8) &&& 0xFF) = toByte (c >>> 8) := by
  have h1 : (c >>> 8) &&& 0xFF = (c >>> 8) % 256 := Nat.and_pow_two_sub_one_eq_mod _ 8
  have h2 : c &&& 0xFF = c % 256 := Nat.and_pow_two_sub_one_eq_mod _ 8
  have h3 : c >>> 8 = c / 256 := by rw [Nat.shiftRight_eq_div_pow]
  refine ⟨?_, ?_⟩
  · rw [toByte_val, toByte_val, h1, h2, h3]
    omega
  · apply Fin.ext
    rw [toByte_val, toByte_val, h1]
    omega

theorem appendChecksum_eq (data : List Byte) (c : Nat) :
    appendChecksum data c = data ++ [toByte ((c >>> 8) &&& 0xFF), toByte (c &&& 0xFF)] := by
  unfold appendChecksum
  rw [List.append_assoc]
  rfl

theorem appendChecksum_length (data : List Byte) (c : Nat) :
    (appendChecksum data c).length = data.length + 2 := by
  rw [appendChecksum_eq, List.length_append]
  rfl

/-- C16: for a buffer `B` of even size (the empty buffer included) with
checksum `C = computeChecksum(B)`, the buffer `B ++ [C >> 8, C & 0xFF]`, which
is what the orchestrator builds, verifies to `0xFFFF`. -/
theorem roundTrip_even_length (B : List Byte) (heven : B.length % 2 = 0) :
    ∃ C, computeChecksum B = .ok C ∧
      appendChecksum B C = B ++ [toByte (C >>> 8), toByte (C &&& 0xFF)] ∧
      verifyChecksum (B ++ [toByte (C >>> 8), toByte (C &&& 0xFF)]) = .ok 0xFFFF := by
  have hle := endAround_le (wordSum (pad B))
  have hc : 65535 - endAround (wordSum (pad B)) ≤ 65535 := by omega
  obtain ⟨hword, hhi⟩ := checksum_bytes _ hc
  refine ⟨_, computeChecksum_eq B, ?_, ?_⟩
  · rw [appendChecksum_eq, hhi]
  · rw [← hhi, verifyChecksum_eq]
    have hlen : (B ++ [toByte (((65535 - endAround (wordSum (pad B))) >>> 8) &&& 0xFF),
        toByte ((65535 - endAround (wordSum (pad B))) &&& 0xFF)]).length % 2 = 0 := by
      rw [List.length_append]
      show (B.length + 2) % 2 = 0
      omega
    rw [pad_of_even _ hlen, wordSum_append B _ _ (B.length / 2) (by omega), hword]
    rw [pad_of_even B heven] at hle ⊢
    congr 1
    rw [show (0xFFFF : Nat) = 65535 from rfl, endAround_eq_ffff_iff]
    revert hle
    unfold endAround
    split <;> intro hle <;> omega

/-- Witness of C16 on the buffer `[0x48, 0x65]`. -/
theorem roundTrip_even_length_witness :
    ∃ C, computeChecksum [0x48, 0x65] = .ok C ∧
      appendChecksum [0x48, 0x65] C =
        [(0x48 : Byte), 0x65] ++ [toByte (C >>> 8), toByte (C &&& 0xFF)] ∧
      verifyChecksum ([(0x48 : Byte), 0x65] ++ [toByte (C >>> 8), toByte (C &&& 0xFF)])
        = .ok 0xFFFF :=
  roundTrip_even_length [0x48, 0x65] (by decide)

theorem wordSum_eq_zero : ∀ (n : Nat) (l : List Byte), l.length = 2 * n →
    (wordSum l = 0 ↔ ∀ b ∈ l, b = 0) := by
  intro n
  induction n with
  | zero =>
    intro l hl
    have hnil : l = [] := List.length_eq_zero.mp (by omega)
    subst hnil
    exact ⟨fun _ b hb => absurd hb (List.not_mem_nil b), fun _ => rfl⟩
  | succ n ih =>
    intro l hl
    match l, hl with
    | a :: b :: rest, hl =>
      have hrest : rest.length = 2 * n := by
        simp only [List.length_cons] at hl
        omega
      rw [wordSum_cons_cons]
      constructor
      · intro h x hx
        have hr : wordSum rest = 0 := by omega
        simp only [List.mem_cons] at hx
        rcases hx with hx | hx | hx
        · subst hx
          apply Fin.ext
          show x.val = 0
          omega
        · subst hx
          apply Fin.ext
          show x.val = 0
          omega
        · exact (ih rest hrest).mp hr x hx
      · intro h
        have ha : a = 0 := h a (List.mem_cons_self _ _)
        have hb : b = 0 := h b (List.mem_cons_of_mem _ (List.mem_cons_self _ _))
        have hr : wordSum rest = 0 :=
          (ih rest hrest).mpr
            (fun x hx => h x (List.mem_cons_of_mem _ (List.mem_cons_of_mem _ hx)))
        rw [ha, hb, hr]
        rfl

theorem mem_pad_iff_zero (B : List Byte) : (∀ b ∈ pad B, b = 0) ↔ ∀ b ∈ B, b = 0 := by
  unfold pad
  split
  · constructor
    · intro h b hb
      exact h b (List.mem_append_left _ hb)
    · intro h b hb
      rw [List.mem_append] at hb
      rcases hb with hb | hb
      · exact h b hb
      · exact List.mem_singleton.mp hb
  · exact Iff.rfl

/-- C17: with `S` the exact sum of the big-endian 16-bit words of `B`
zero-padded to even size, `verifyChecksum(B)` is `0` when `S = 0` and
`((S - 1) mod 65535) + 1` otherwise; the value is congruent to `S` modulo
`65535`, is `0` exactly when every byte of `B` is `0`, and is `0xFFFF` exactly
when `S > 0` and `65535` divides `S`. -/
theorem verify_closed_form (B : List Byte) :
    verifyChecksum B =
      .ok (if wordSum (pad B) = 0 then 0 else (wordSum (pad B) - 1) % 65535 + 1) ∧
    ∃ v, verifyChecksum B = .ok v ∧
      v % 65535 = wordSum (pad B) % 65535 ∧
      (v = 0 ↔ wordSum (pad B) = 0) ∧
      (v = 0 ↔ ∀ b ∈ B, b = 0) ∧
      (v = 0xFFFF ↔ 0 < wordSum (pad B) ∧ 65535 ∣ wordSum (pad B)) := by
  refine ⟨verifyChecksum_eq B, _, verifyChecksum_eq B, ?_, endAround_eq_zero_iff _, ?_, ?_⟩
  · unfold endAround
    split <;> omega
  · rw [endAround_eq_zero_iff,
      wordSum_eq_zero ((pad B).length / 2) (pad B) (by have := pad_length_even B; omega),
      mem_pad_iff_zero]
  · rw [show (0xFFFF : Nat) = 65535 from rfl, endAround_eq_ffff_iff, Nat.dvd_iff_mod_eq_zero]

/-! ## The transmission orchestrator -/

/-- The display loop on an even-sized buffer, from an even index and with
enough fuel, reads inside the buffer only. -/
theorem wordsLoop_even (data : List Byte) (hlen : data.length % 2 = 0) :
    ∀ (fuel i : Nat) (printed : List Nat), i % 2 = 0 → data.length ≤ i + 2 * fuel →
      ∃ ws, wordsLoop data fuel i printed = .ok ws := by
  intro fuel
  induction fuel with
  | zero =>
    intro i printed _ hfuel
    have hi : ¬ i < data.length := by omega
    exact ⟨printed, by simp only [wordsLoop, hi, if_false]⟩
  | succ fuel ih =>
    intro i printed hi2 hfuel
    by_cases hi : i < data.length
    · have hi1 : i + 1 < data.length := by omega
      obtain ⟨ws, hws⟩ := ih (i + 2)
        (printed ++ [((data[i].val <<< 8) ||| data[i + 1].val) % 2 ^ 16]) (by omega) (by omega)
      refine ⟨ws, ?_⟩
      simp only [wordsLoop, hi, if_true, List.getElem?_eq_getElem hi,
        List.getElem?_eq_getElem hi1]
      exact hws
    · exact ⟨printed, by simp only [wordsLoop, hi, if_false]⟩

/-- The display loop on an odd-sized buffer, from an even index and with
enough fuel, reads `data[data.size()]`. -/
theorem wordsLoop_odd (data : List Byte) (hlen : data.length % 2 = 1) :
    ∀ (fuel i : Nat) (printed : List Nat), i % 2 = 0 → data.length ≤ i + 2 * fuel →
      i < data.length → wordsLoop data fuel i printed = .error .outOfBounds := by
  intro fuel
  induction fuel with
  | zero =>
    intro i printed _ hfuel hi
    omega
  | succ fuel ih =>
    intro i printed hi2 hfuel hi
    by_cases hi1 : i + 1 < data.length
    · simp only [wordsLoop, hi, if_true, List.getElem?_eq_getElem hi,
        List.getElem?_eq_getElem hi1]
      exact ih (i + 2) _ (by omega) (by omega) (by omega)
    · have hnone : data[i + 1]? = none := List.getElem?_eq_none (by omega)
      simp only [wordsLoop, hi, if_true, List.getElem?_eq_getElem hi, hnone]

/-- A fault of the Step 4 display loop ends the run of the orchestrator. -/
theorem simulate_step4_fault (rand : Nat → Nat) (s : List Char) (drawn : Nat)
    (data : List Byte) (c : Nat) (e : Fault)
    (hd : binaryStringToBytes s = .ok data) (hc : computeChecksum data = .ok c)
    (hw : wordsLoop (appendChecksum data c) (appendChecksum data c).length 0 [] = .error e) :
    simulateBinaryTransmission rand s drawn = .error e := by
  simp only [simulateBinaryTransmission, hd, hc, hw]

/-- The run of the orchestrator when the display loop returns and the first
draw selects a clean transmission. -/
theorem simulate_clean (rand : Nat → Nat) (s : List Char) (drawn : Nat) (data : List Byte)
    (c : Nat) (ws : List Nat)
    (hd : binaryStringToBytes s = .ok data) (hc : computeChecksum data = .ok c)
    (hw : wordsLoop (appendChecksum data c) (appendChecksum data c).length 0 [] = .ok ws)
    (hclean : ¬ rand drawn % 100 < 10) :
    simulateBinaryTransmission rand s drawn =
      .ok { data := data, checksum := c, sent := appendChecksum data c, words := ws,
            errorBits := 0, received := appendChecksum data c,
            receiverSum := endAround (wordSum (pad (appendChecksum data c))),
            valid := endAround (wordSum (pad (appendChecksum data c))) == 0xFFFF,
            drawn := drawn + 1 } := by
  simp only [simulateBinaryTransmission, hd, hc, hw, hclean, if_false, verifyChecksum_eq]

/-- The run of the orchestrator when the display loop returns and the first
draw selects noise. -/
theorem simulate_noisy (rand : Nat → Nat) (s : List Char) (drawn : Nat) (data : List Byte)
    (c : Nat) (ws : List Nat) (out : List Byte) (used : Nat)
    (hd : binaryStringToBytes s = .ok data) (hc : computeChecksum data = .ok c)
    (hw : wordsLoop (appendChecksum data c) (appendChecksum data c).length 0 [] = .ok ws)
    (hnoise : rand drawn % 100 < 10)
    (hinj : introduceErrors rand (appendChecksum data c)
      (Int.ofNat (rand (drawn + 1) % 3 + 1)) (drawn + 2) = .ok (out, used)) :
    simulateBinaryTransmission rand s drawn =
      .ok { data := data, checksum := c, sent := appendChecksum data c, words := ws,
            errorBits := Int.ofNat (rand (drawn + 1) % 3 + 1), received := out,
            receiverSum := endAround (wordSum (pad out)),
            valid := endAround (wordSum (pad out)) == 0xFFFF,
            drawn := used } := by
  simp only [simulateBinaryTransmission, hd, hc, hw, hnoise, if_true, hinj, verifyChecksum_eq]

/-- The encoding of a binary string has `ceil(L / 8)` bytes. -/
theorem binaryStringToBytes_length (s : List Char) (data : List Byte)
    (hbin : ∀ ch ∈ s, ch = '0' ∨ ch = '1') (hd : binaryStringToBytes s = .ok data) :
    data.length = (s.length + 7) / 8 := by
  rw [binaryStringToBytes_eq s hbin] at hd
  injection hd with hd
  rw [← hd, List.length_map, List.length_range]

/-- The noise policy on the inputs whose byte count is even, where the
Step 4 loop stays inside the buffer: the orchestrator returns; the buffer it
built is `binaryStringToBytes(s) ++ [checksum >> 8, checksum & 0xFF]`; when
the first draw `d` has `d % 100 ≥ 10` that buffer itself is given to
`verifyChecksum`; when `d % 100 < 10` the injector is run on that buffer with
the count `(next draw % 3) + 1`, one of 1, 2, 3, and its result is given to
`verifyChecksum`; the run is reported valid exactly when the verification
value is `0xFFFF`. -/
theorem noise_policy_even_bytes (rand : Nat → Nat) (s : List Char) (drawn : Nat)
    (hbin : ∀ ch ∈ s, ch = '0' ∨ ch = '1') (heven : ((s.length + 7) / 8) % 2 = 0) :
    ∃ data c t, binaryStringToBytes s = .ok data ∧ computeChecksum data = .ok c ∧
      simulateBinaryTransmission rand s drawn = .ok t ∧
      t.sent = data ++ [toByte ((c >>> 8) &&& 0xFF), toByte (c &&& 0xFF)] ∧
      (10 ≤ rand drawn % 100 → t.received = t.sent ∧ t.errorBits = 0) ∧
      (rand drawn % 100 < 10 →
        t.errorBits = Int.ofNat (rand (drawn + 1) % 3) + 1 ∧
        (t.errorBits = 1 ∨ t.errorBits = 2 ∨ t.errorBits = 3) ∧
        introduceErrors rand t.sent t.errorBits (drawn + 2) = .ok (t.received, t.drawn)) ∧
      verifyChecksum t.received = .ok t.receiverSum ∧
      (t.valid = true ↔ t.receiverSum = 0xFFFF) := by
  obtain ⟨data, hd⟩ : ∃ data, binaryStringToBytes s = .ok data :=
    ⟨_, binaryStringToBytes_eq s hbin⟩
  obtain ⟨c, hc⟩ : ∃ c, computeChecksum data = .ok c := ⟨_, computeChecksum_eq data⟩
  have hdlen := binaryStringToBytes_length s data hbin hd
  have hlen := appendChecksum_length data c
  have hne : (appendChecksum data c).length ≠ 0 := by omega
  obtain ⟨ws, hw⟩ := wordsLoop_even (appendChecksum data c) (by omega)
    (appendChecksum data c).length 0 [] (by omega) (by omega)
  by_cases hnoise : rand drawn % 100 < 10
  · obtain ⟨out, hout, _⟩ := introduceErrorsLoop_ok rand (rand (drawn + 1) % 3 + 1) _
      (drawn + 2) hne
    have hrun := simulate_noisy rand s drawn data c ws out _ hd hc hw hnoise hout
    refine ⟨_, _, _, hd, hc, hrun, appendChecksum_eq _ _, ?_, ?_, verifyChecksum_eq _, ?_⟩
    · intro h
      omega
    · intro _
      refine ⟨rfl, ?_, hout⟩
      show Int.ofNat (rand (drawn + 1) % 3 + 1) = 1 ∨ Int.ofNat (rand (drawn + 1) % 3 + 1) = 2 ∨
        Int.ofNat (rand (drawn + 1) % 3 + 1) = 3
      have h3 : rand (drawn + 1) % 3 < 3 := Nat.mod_lt _ (by omega)
      simp only [Int.ofNat_eq_coe]
      omega
    · show (endAround (wordSum (pad out)) == 0xFFFF) = true ↔ _
      exact beq_iff_eq
  · have hrun := simulate_clean rand s drawn data c ws hd hc hw hnoise
    refine ⟨_, _, _, hd, hc, hrun, appendChecksum_eq _ _, ?_, ?_, verifyChecksum_eq _, ?_⟩
    · intro _
      exact ⟨rfl, rfl⟩
    · intro h
      exact absurd h hnoise
    · show (endAround (wordSum (pad (appendChecksum _ _))) == 0xFFFF) = true ↔ _
      exact beq_iff_eq

/-- The Step 4 loop of the orchestrator on a binary string: when the string
encodes to an even number of bytes the loop stays inside the buffer and the
run returns; when that number is odd the loop reads one element past the end
and the run ends there, before the first draw. -/
theorem step4_words (rand : Nat → Nat) (s : List Char) (drawn : Nat)
    (hbin : ∀ ch ∈ s, ch = '0' ∨ ch = '1') :
    (((s.length + 7) / 8) % 2 = 0 → ∃ t, simulateBinaryTransmission rand s drawn = .ok t ∧
      wordsLoop t.sent t.sent.length 0 [] = .ok t.words) ∧
    (((s.length + 7) / 8) % 2 = 1 →
      simulateBinaryTransmission rand s drawn = .error .outOfBounds) := by
  obtain ⟨data, hd⟩ : ∃ data, binaryStringToBytes s = .ok data :=
    ⟨_, binaryStringToBytes_eq s hbin⟩
  obtain ⟨c, hc⟩ : ∃ c, computeChecksum data = .ok c := ⟨_, computeChecksum_eq data⟩
  have hdlen := binaryStringToBytes_length s data hbin hd
  have hlen := appendChecksum_length data c
  have hne : (appendChecksum data c).length ≠ 0 := by omega
  refine ⟨?_, ?_⟩
  · intro heven
    obtain ⟨ws, hw⟩ := wordsLoop_even (appendChecksum data c) (by omega)
      (appendChecksum data c).length 0 [] (by omega) (by omega)
    by_cases hnoise : rand drawn % 100 < 10
    · obtain ⟨out, hout, _⟩ := introduceErrorsLoop_ok rand (rand (drawn + 1) % 3 + 1) _
        (drawn + 2) hne
      exact ⟨_, simulate_noisy rand s drawn data c ws out _ hd hc hw hnoise hout, hw⟩
    · exact ⟨_, simulate_clean rand s drawn data c ws hd hc hw hnoise, hw⟩
  · intro hodd
    exact simulate_step4_fault rand s drawn data c _ hd hc
      (wordsLoop_odd (appendChecksum data c) (by omega) _ 0 [] (by omega) (by omega) (by omega))

/-- C18 (the code at the failing input): for the string `101` the buffer of
Step 4 is `[0xA0, 0x5F, 0xFF]`, of size 3; the display loop, at `i = 2`,
reads `data[2]` and `data[3]`, and index 3 is outside the buffer; the run of
the orchestrator ends with that fault. -/
theorem step4_reads_past_end :
    binaryStringToBytes ['1', '0', '1'] = .ok [0xA0] ∧
    computeChecksum [0xA0] = .ok 0x5FFF ∧
    appendChecksum [0xA0] 0x5FFF = [0xA0, 0x5F, 0xFF] ∧
    wordsLoop [0xA0, 0x5F, 0xFF] 3 0 [] = .error .outOfBounds ∧
    ([0xA0, 0x5F, 0xFF] : List Byte)[2]? = some 0xFF ∧
    ([0xA0, 0x5F, 0xFF] : List Byte)[3]? = none ∧
    simulateBinaryTransmission (fun _ => 50) ['1', '0', '1'] 0 = .error .outOfBounds :=
  ⟨rfl, rfl, rfl, rfl, rfl, rfl, rfl⟩

/-- C19: on every string of `'0'`/`'1'` characters (the empty string
included) the buffer the orchestrator builds, which is the only buffer it
passes to `introduceErrors`, has at least 2 bytes: every `rand() % data.size()`
is a valid index of it and the injector returns on it for every count and
every stream of draws. No run of the orchestrator divides by zero; a run that
returns passed that buffer to the injector in the noise branch and the call
returned; the run returns on every even byte count, and on an odd byte count
it ends in the Step 4 loop, before the injector is reached. -/
theorem injector_buffer_nonempty (rand : Nat → Nat) (s : List Char) (drawn : Nat)
    (hbin : ∀ ch ∈ s, ch = '0' ∨ ch = '1') :
    ∃ data c, binaryStringToBytes s = .ok data ∧ computeChecksum data = .ok c ∧
      2 ≤ (appendChecksum data c).length ∧
      (∀ r : Nat, r % (appendChecksum data c).length < (appendChecksum data c).length) ∧
      (∀ (rand1 : Nat → Nat) (count : Int) (drawn1 : Nat), ∃ out used,
        introduceErrors rand1 (appendChecksum data c) count drawn1 = .ok (out, used) ∧
        out.length = (appendChecksum data c).length) ∧
      simulateBinaryTransmission rand s drawn ≠ .error .divisionByZero ∧
      (∀ t, simulateBinaryTransmission rand s drawn = .ok t →
        t.sent = appendChecksum data c ∧
        (rand drawn % 100 < 10 →
          introduceErrors rand t.sent t.errorBits (drawn + 2) = .ok (t.received, t.drawn) ∧
          t.received.length = t.sent.length)) ∧
      (data.length % 2 = 0 → ∃ t, simulateBinaryTransmission rand s drawn = .ok t) ∧
      (data.length % 2 = 1 →
        simulateBinaryTransmission rand s drawn = .error .outOfBounds) := by
  obtain ⟨data, hd⟩ : ∃ data, binaryStringToBytes s = .ok data :=
    ⟨_, binaryStringToBytes_eq s hbin⟩
  obtain ⟨c, hc⟩ : ∃ c, computeChecksum data = .ok c := ⟨_, computeChecksum_eq data⟩
  have hlen := appendChecksum_length data c
  have hne : (appendChecksum data c).length ≠ 0 := by omega
  have hall : ∀ (rand1 : Nat → Nat) (count : Int) (drawn1 : Nat), ∃ out used,
      introduceErrors rand1 (appendChecksum data c) count drawn1 = .ok (out, used) ∧
      out.length = (appendChecksum data c).length := by
    intro rand1 count drawn1
    obtain ⟨out, hout, hl⟩ := introduceErrorsLoop_ok rand1 count.toNat _ drawn1 hne
    exact ⟨out, _, hout, hl⟩
  have hidx : ∀ r : Nat, r % (appendChecksum data c).length < (appendChecksum data c).length :=
    fun r => Nat.mod_lt _ (Nat.pos_of_ne_zero hne)
  refine ⟨data, c, hd, hc, by omega, hidx, hall, ?_⟩
  by_cases hpar : data.length % 2 = 0
  · obtain ⟨ws, hw⟩ := wordsLoop_even (appendChecksum data c) (by omega)
      (appendChecksum data c).length 0 [] (by omega) (by omega)
    by_cases hnoise : rand drawn % 100 < 10
    · obtain ⟨out, hout, hl⟩ := introduceErrorsLoop_ok rand (rand (drawn + 1) % 3 + 1) _
        (drawn + 2) hne
      have hrun := simulate_noisy rand s drawn data c ws out _ hd hc hw hnoise hout
      refine ⟨?_, ?_, fun _ => ⟨_, hrun⟩, fun h => absurd h (by omega)⟩
      · intro h
        rw [hrun] at h
        cases h
      · intro t ht
        rw [hrun] at ht
        injection ht with ht
        subst ht
        exact ⟨rfl, fun _ => ⟨hout, hl⟩⟩
    · have hrun := simulate_clean rand s drawn data c ws hd hc hw hnoise
      refine ⟨?_, ?_, fun _ => ⟨_, hrun⟩, fun h => absurd h (by omega)⟩
      · intro h
        rw [hrun] at h
        cases h
      · intro t ht
        rw [hrun] at ht
        injection ht with ht
        subst ht
        exact ⟨rfl, fun h => absurd h hnoise⟩
  · have hrun := simulate_step4_fault rand s drawn data c _ hd hc
      (wordsLoop_odd (appendChecksum data c) (by omega) _ 0 [] (by omega) (by omega) (by omega))
    refine ⟨?_, ?_, fun h => absurd h hpar, fun _ => hrun⟩
    · intro h
      rw [hrun] at h
      cases h
    · intro t ht
      rw [hrun] at ht
      cases ht

/-- Witness of C19 on the empty string with a source that always draws 3
(the noise branch, count `3 % 3 + 1 = 1`). -/
theorem injector_buffer_nonempty_witness :
    ∃ data c, binaryStringToBytes [] = .ok data ∧ computeChecksum data = .ok c ∧
      2 ≤ (appendChecksum data c).length ∧
      (∀ r : Nat, r % (appendChecksum data c).length < (appendChecksum data c).length) ∧
      (∀ (rand1 : Nat → Nat) (count : Int) (drawn1 : Nat), ∃ out used,
        introduceErrors rand1 (appendChecksum data c) count drawn1 = .ok (out, used) ∧
        out.length = (appendChecksum data c).length) ∧
      simulateBinaryTransmission (fun _ => 3) [] 0 ≠ .error .divisionByZero ∧
      (∀ t, simulateBinaryTransmission (fun _ => 3) [] 0 = .ok t →
        t.sent = appendChecksum data c ∧
        (3 % 100 < 10 →
          introduceErrors (fun _ => 3) t.sent t.errorBits (0 + 2) = .ok (t.received, t.drawn) ∧
          t.received.length = t.sent.length)) ∧
      (data.length % 2 = 0 → ∃ t, simulateBinaryTransmission (fun _ => 3) [] 0 = .ok t) ∧
      (data.length % 2 = 1 →
        simulateBinaryTransmission (fun _ => 3) [] 0 = .error .outOfBounds) :=
  injector_buffer_nonempty (fun _ => 3) [] 0 (by decide)

/-- C20: the buffer `D = [0x00, 0x01, 0xFF, 0xFE]` verifies to `0xFFFF`;
`introduceErrors` with count 2 and draws selecting bit 0 of byte 1 and bit 0
of byte 3 (two distinct positions) turns it into `[0x00, 0x00, 0xFF, 0xFF]`,
which differs from `D` and still verifies to `0xFFFF`; the orchestrator run on
the string `0000000000000001` with the draws 0, 1, 1, 0, 3, 0 sends `D`,
injects these two errors and reports the corrupted buffer as valid. -/
theorem two_bit_errors_undetected :
    (∃ (D : List Byte) (i1 j1 i2 j2 : Nat) (rand : Nat → Nat),
      (i1, j1) ≠ (i2, j2) ∧ i1 < D.length ∧ i2 < D.length ∧ j1 < 8 ∧ j2 < 8 ∧
      verifyChecksum D = .ok 0xFFFF ∧
      introduceErrors rand D 2 0 = .ok (flipBit (flipBit D i1 j1) i2 j2, 4) ∧
      flipBit (flipBit D i1 j1) i2 j2 ≠ D ∧
      verifyChecksum (flipBit (flipBit D i1 j1) i2 j2) = .ok 0xFFFF) ∧
    verifyChecksum [0x00, 0x01, 0xFF, 0xFE] = .ok 0xFFFF ∧
    introduceErrors (fun n => [1, 0, 3, 0].getD n 0) [0x00, 0x01, 0xFF, 0xFE] 2 0
      = .ok ([0x00, 0x00, 0xFF, 0xFF], 4) ∧
    verifyChecksum [0x00, 0x00, 0xFF, 0xFF] = .ok 0xFFFF ∧
    (simulateBinaryTransmission (fun n => [0, 1, 1, 0, 3, 0].getD n 0)
        ['0', '0', '0', '0', '0', '0', '0', '0', '0', '0', '0', '0', '0', '0', '0', '1'] 0).map
        (fun t => (t.sent, t.errorBits, t.received, t.receiverSum, t.valid))
      = .ok ([0x00, 0x01, 0xFF, 0xFE], 2, [0x00, 0x00, 0xFF, 0xFF], 0xFFFF, true) :=
  ⟨⟨[0x00, 0x01, 0xFF, 0xFE], 1, 0, 3, 0, fun n => [1, 0, 3, 0].getD n 0,
      by decide, by decide, by decide, by decide, by decide, by rfl, by rfl, by decide,
      by rfl⟩,
    rfl, rfl, rfl, rfl⟩

end Checksum
